import Mathlib

/-!
# Verification of the TrafficTester noise-calibration core

This file gives a shallow embedding, in Lean 4, of the core data model and
operations of the TrafficTester repository:

* `noiseindex.py` — the Sweep Table (`NoiseIndex._build_index`,
  `NoiseIndex.get_closest_noise`, `NoiseIndex.adjust_noise`);
* `dbmanager.py` — `DBManager.sort_and_dedup`;
* `traffictester.py` / `testing.py` — PLS-code resolution
  (`_get_min_esno`), the lock-wait loop (`_wait_for_lock`) and the
  result-record branch of `execute_test`;
* `utils/helpers.py` — `safe_call`;
* the Streak Evaluator described in the design spec (not present in the
  source tree; modelled from the spec's transition table).

Conventions of the embedding:

* Python floats that hold exact decimal measurement values are modelled as
  rationals (`ℚ`); the values appearing in the program (margins such as
  `6.5`, buffers such as `0.3`) are exactly representable, so ordering and
  arithmetic agree with the source.
* Python exceptions are modelled with an explicit error type `PyExc` whose
  constructors name the Python exception classes raised by the source, and
  fallible functions return `Except PyExc _`.
* Stateful device interaction (modulator / demodulator writes, sleeps) is
  abstracted into oracle functions giving the sequence of measurements the
  device returns; loops whose termination depends on live measurements are
  written with explicit fuel, `none` meaning the loop has not exited within
  the modelled number of iterations.
-/

deriving instance DecidableEq for Except

/-- Python exception classes raised by the modelled code.  `valueError`
corresponds to Python's `ValueError`, `keyError` to `KeyError`. -/
inductive PyExc where
  | valueError (msg : String)
  | keyError (msg : String)
deriving DecidableEq, Repr

/-- Is this exception a `ValueError`? -/
def PyExc.isValueError : PyExc → Bool
  | .valueError _ => true
  | .keyError _ => false

/-- Is this exception a `KeyError`? -/
def PyExc.isKeyError : PyExc → Bool
  | .valueError _ => false
  | .keyError _ => true

/-- Does this `Except` value hold a raised `ValueError`? -/
def raisesValueError {α : Type} : Except PyExc α → Bool
  | .error e => e.isValueError
  | .ok _ => false

/-- Does this `Except` value hold a raised `KeyError`? -/
def raisesKeyError {α : Type} : Except PyExc α → Bool
  | .error e => e.isKeyError
  | .ok _ => false

/-! ## Sweep Table (`noiseindex.py`)

`NoiseIndex.index` is a Python dict mapping `(frequency, symbol_rate, power)`
to a pair of parallel lists `(esnos, noises)`.  We model the dict as an
association list keyed by the triple. -/

/-- One group of the Sweep Table: the ascending margin list paired with the
parallel `(noise_hex, noise_dec)` list, exactly the value stored per key by
`NoiseIndex._build_index`. -/
abbrev SweepGroup := List ℚ × List (String × ℤ)

/-- The Sweep Table: `NoiseIndex.index`, a dict keyed by
`(frequency_mhz, symbol_rate_msps, power_dbm)`. -/
abbrev NoiseTable := List ((ℚ × ℚ × ℚ) × SweepGroup)

/-- Dict lookup `self.index[key]` (with `key in self.index` as `isSome`). -/
def lookupKey : NoiseTable → (ℚ × ℚ × ℚ) → Option SweepGroup
  | [], _ => none
  | e :: rest, k => if e.1 = k then some e.2 else lookupKey rest k

/-- Python's `bisect.bisect_left(a, x)` under its documented contract for a
sorted list `a`: the leftmost insertion point, i.e. the index of the first
element that is not `< x` (equivalently, the number of leading elements
`< x`). -/
def bisect_left : List ℚ → ℚ → ℕ
  | [], _ => 0
  | e :: rest, x => if e < x then bisect_left rest x + 1 else 0

/-- The dict returned by `NoiseIndex.get_closest_noise`. -/
structure LookupResult where
  requested_esno : ℚ
  closest_esno : ℚ
  noise_hex : String
  noise_dec : ℤ
deriving DecidableEq, Repr

/-- The index selection of `get_closest_noise`: insertion point `i` from
`bisect_left`, then `best_idx = 0` if `i == 0`, the last index if
`i >= len(esno_list)`, and `i` itself otherwise. -/
def best_index (esno_list : List ℚ) (target_esno : ℚ) : ℕ :=
  let i := bisect_left esno_list target_esno
  if i = 0 then 0
  else if esno_list.length ≤ i then esno_list.length - 1
  else i

/-- Model of `NoiseIndex.get_closest_noise(freq, symrate, power, target_esno)`.
Missing keys raise `ValueError` exactly as in the source.  List indexing is
modelled with `getD`; in the source the lists are nonempty by construction
of `_build_index` (pandas `groupby` yields only nonempty groups), so the
defaults are never consulted on reachable tables. -/
def get_closest_noise (table : NoiseTable) (freq symrate power target_esno : ℚ) :
    Except PyExc LookupResult :=
  match lookupKey table (freq, symrate, power) with
  | none =>
      .error (.valueError s!"No data for freq={freq}, symrate={symrate}, power={power}")
  | some (esno_list, noise_list) =>
      let best_idx := best_index esno_list target_esno
      let closest_esno := esno_list.getD best_idx 0
      let nh := noise_list.getD best_idx ("", 0)
      .ok ⟨target_esno, closest_esno, nh.1, nh.2⟩

/-- The sweep group used by the spec's end-to-end example: margins
`[4.0, 6.0, 8.0, 10.0]` with noise decimals `[100, 110, 120, 130]`. -/
def exampleGroup : SweepGroup :=
  ([4, 6, 8, 10], [("0x64", 100), ("0x6e", 110), ("0x78", 120), ("0x82", 130)])

/-- A table holding the spec's example group under key `(1200, 12, -30)`. -/
def exampleTable : NoiseTable := [((1200, 12, -30), exampleGroup)]

/-! ### Lemmas about `bisect_left` and sorted lists -/

theorem bisect_left_le_length (a : List ℚ) (x : ℚ) : bisect_left a x ≤ a.length := by
  induction a with
  | nil => simp [bisect_left]
  | cons e rest ih =>
      by_cases h : e < x <;> simp [bisect_left, h] <;> omega

theorem getD_lt_of_lt_bisect_left (a : List ℚ) (x : ℚ) :
    ∀ j, j < bisect_left a x → a.getD j 0 < x := by
  induction a with
  | nil => intro j hj; simp [bisect_left] at hj
  | cons e rest ih =>
      intro j hj
      by_cases h : e < x
      · cases j with
        | zero => simpa using h
        | succ j' =>
            simp only [bisect_left, if_pos h] at hj
            simpa using ih j' (by omega)
      · simp [bisect_left, h] at hj

theorem not_getD_bisect_left_lt (a : List ℚ) (x : ℚ)
    (h : bisect_left a x < a.length) : ¬ a.getD (bisect_left a x) 0 < x := by
  induction a with
  | nil => simp [bisect_left] at h
  | cons e rest ih =>
      by_cases he : e < x
      · simp only [bisect_left, if_pos he] at h ⊢
        simpa using ih (by simpa using h)
      · simpa [bisect_left, he] using he

theorem sorted_getD_le (a : List ℚ) (ha : a.Sorted (· ≤ ·)) :
    ∀ i j, i ≤ j → j < a.length → a.getD i 0 ≤ a.getD j 0 := by
  induction a with
  | nil => intro i j _ hj; simp at hj
  | cons e rest ih =>
      intro i j hij hj
      rcases List.sorted_cons.mp ha with ⟨hhead, htail⟩
      cases i with
      | zero =>
          cases j with
          | zero => simp
          | succ j' =>
              simp only [List.getD_cons_zero, List.getD_cons_succ]
              have hj' : j' < rest.length := by simpa using hj
              have hmem : rest.getD j' 0 ∈ rest := by
                rw [List.getD_eq_getElem rest 0 hj']; exact List.getElem_mem hj'
              exact hhead _ hmem
      | succ i' =>
          cases j with
          | zero => omega
          | succ j' =>
              simp only [List.getD_cons_succ]
              exact ih htail i' j' (by omega) (by simpa using hj)

theorem best_index_lt_length (esnos : List ℚ) (t : ℚ) (h : esnos ≠ []) :
    best_index esnos t < esnos.length := by
  have hlen : 0 < esnos.length := List.length_pos.mpr h
  have hb := bisect_left_le_length esnos t
  unfold best_index
  by_cases h0 : bisect_left esnos t = 0
  · simp [h0, hlen]
  · by_cases hge : esnos.length ≤ bisect_left esnos t
    · simp [h0, hge]; omega
    · simp [h0, hge]; omega

/-! ### Claim C1 -/

/-- The selection property claimed for `get_closest_noise` on a present key:
the result echoes the target, and its `closest_esno` together with the
`(noise_hex, noise_dec)` pair are read off a common index `j` of the group's
parallel lists; whenever some group margin is `≥ target` the selected margin
is the smallest such (which is also the group's first entry when the target
is below all margins), and when every margin is `< target` the selection
clamps to the last index. -/
def selectedEntry (esnos : List ℚ) (noises : List (String × ℤ)) (target : ℚ)
    (r : LookupResult) : Prop :=
  r.requested_esno = target ∧
  ∃ j, j < esnos.length ∧
    esnos.getD j 0 = r.closest_esno ∧
    noises.getD j ("", 0) = (r.noise_hex, r.noise_dec) ∧
    ((∃ e ∈ esnos, target ≤ e) →
      target ≤ r.closest_esno ∧ ∀ e ∈ esnos, target ≤ e → r.closest_esno ≤ e) ∧
    ((∀ e ∈ esnos, e < target) → j = esnos.length - 1)

theorem get_closest_noise_ok (table : NoiseTable) (f s p t : ℚ)
    (esnos : List ℚ) (noises : List (String × ℤ))
    (h : lookupKey table (f, s, p) = some (esnos, noises)) :
    get_closest_noise table f s p t =
      .ok ⟨t, esnos.getD (best_index esnos t) 0,
           (noises.getD (best_index esnos t) ("", 0)).1,
           (noises.getD (best_index esnos t) ("", 0)).2⟩ := by
  simp [get_closest_noise, h]

theorem mem_getD_of_lt (a : List ℚ) (j : ℕ) (hj : j < a.length) : a.getD j 0 ∈ a := by
  rw [List.getD_eq_getElem a 0 hj]; exact List.getElem_mem hj

theorem best_index_eq_bisect (esnos : List ℚ) (t : ℚ)
    (h : bisect_left esnos t < esnos.length) : best_index esnos t = bisect_left esnos t := by
  unfold best_index
  by_cases h0 : bisect_left esnos t = 0
  · simp [h0]
  · simp [h0, Nat.not_le.mpr h]

/-- C1: on every key present in the table, `get_closest_noise` (for a sorted,
nonempty group) selects the smallest group margin `≥ target` when one exists,
clamps to the last entry when the target exceeds all margins (the first entry
is the selected one when the target is below all margins), and returns the
noise pair stored at the same index; and the spec's end-to-end example group
`[4, 6, 8, 10]` / `[100, 110, 120, 130]` yields `8`/`120` at target `6.5`,
`10`/`130` at target `12`, and `4`/`100` at target `1`. -/
theorem C1_get_closest_noise_least_margin_ge_target :
    (∀ (table : NoiseTable) (f s p t : ℚ) (esnos : List ℚ)
        (noises : List (String × ℤ)) (r : LookupResult),
      lookupKey table (f, s, p) = some (esnos, noises) →
      esnos.Sorted (· ≤ ·) → esnos ≠ [] →
      get_closest_noise table f s p t = .ok r →
      selectedEntry esnos noises t r)
    ∧ get_closest_noise exampleTable 1200 12 (-30) 6.5 = .ok ⟨6.5, 8, "0x78", 120⟩
    ∧ get_closest_noise exampleTable 1200 12 (-30) 12 = .ok ⟨12, 10, "0x82", 130⟩
    ∧ get_closest_noise exampleTable 1200 12 (-30) 1 = .ok ⟨1, 4, "0x64", 100⟩ := by
  refine ⟨?_, ?_, ?_, ?_⟩
  · intro table f s p t esnos noises r hlk hsort hne hok
    rw [get_closest_noise_ok table f s p t esnos noises hlk] at hok
    have hr : r = ⟨t, esnos.getD (best_index esnos t) 0,
        (noises.getD (best_index esnos t) ("", 0)).1,
        (noises.getD (best_index esnos t) ("", 0)).2⟩ := by
      injection hok with h; exact h.symm
    subst hr
    have hlen : 0 < esnos.length := List.length_pos.mpr hne
    refine ⟨rfl, best_index esnos t, best_index_lt_length esnos t hne, rfl, ?_, ?_, ?_⟩
    · exact Prod.mk.eta
    · rintro ⟨e, hmem, hte⟩
      -- some margin is ≥ target, so the insertion point is inside the list
      have hi : bisect_left esnos t < esnos.length := by
        by_contra hge
        obtain ⟨idx, hidx, hval⟩ := List.mem_iff_getElem.mp hmem
        have : esnos.getD idx 0 < t :=
          getD_lt_of_lt_bisect_left esnos t idx (by omega)
        rw [List.getD_eq_getElem esnos 0 hidx, hval] at this
        exact absurd hte (not_le.mpr this)
      rw [best_index_eq_bisect esnos t hi]
      constructor
      · simpa using not_getD_bisect_left_lt esnos t hi
      · intro e' hmem' hte'
        obtain ⟨idx, hidx, hval⟩ := List.mem_iff_getElem.mp hmem'
        have hidx_ge : bisect_left esnos t ≤ idx := by
          by_contra hlt
          have : esnos.getD idx 0 < t :=
            getD_lt_of_lt_bisect_left esnos t idx (by omega)
          rw [List.getD_eq_getElem esnos 0 hidx, hval] at this
          exact absurd hte' (not_le.mpr this)
        calc esnos.getD (bisect_left esnos t) 0
            ≤ esnos.getD idx 0 := sorted_getD_le esnos hsort _ idx hidx_ge hidx
          _ = e' := by rw [List.getD_eq_getElem esnos 0 hidx, hval]
    · intro hall
      -- every margin is < target, so the insertion point is past the end
      have hi : bisect_left esnos t = esnos.length := by
        have hle := bisect_left_le_length esnos t
        by_contra hne'
        have hlt : bisect_left esnos t < esnos.length := by omega
        have := not_getD_bisect_left_lt esnos t hlt
        exact this (hall _ (mem_getD_of_lt esnos _ hlt))
      unfold best_index
      have h0 : bisect_left esnos t ≠ 0 := by omega
      rw [hi]
      rw [if_neg (by omega), if_pos le_rfl]
  · norm_num [get_closest_noise, lookupKey, exampleTable, exampleGroup, best_index, bisect_left]
  · norm_num [get_closest_noise, lookupKey, exampleTable, exampleGroup, best_index, bisect_left]
  · norm_num [get_closest_noise, lookupKey, exampleTable, exampleGroup, best_index, bisect_left]

/-- Witness for C1: the selection property instantiated at the spec's example
group with target `6.5` and the result computed by `get_closest_noise`. -/
theorem C1_get_closest_noise_least_margin_ge_target_witness :
    selectedEntry [4, 6, 8, 10]
      [("0x64", 100), ("0x6e", 110), ("0x78", 120), ("0x82", 130)]
      6.5 ⟨6.5, 8, "0x78", 120⟩ :=
  C1_get_closest_noise_least_margin_ge_target.1 exampleTable 1200 12 (-30) 6.5 _ _ _
    (by norm_num [lookupKey, exampleTable, exampleGroup])
    (by norm_num [List.sorted_cons])
    (by simp)
    C1_get_closest_noise_least_margin_ge_target.2.1

/-! ### Claim C3: behaviour on an absent key -/

/-- C3 counterexample: at the concrete absent key `(1200, 12, -30)` of the
empty table, `get_closest_noise` raises a `ValueError` — not a
`KeyError`-class error as the claim states. -/
theorem C3_counterexample_value_error_not_key_error :
    raisesKeyError (get_closest_noise [] 1200 12 (-30) 6.5) = false ∧
    raisesValueError (get_closest_noise [] 1200 12 (-30) 6.5) = true := by
  exact ⟨rfl, rfl⟩

/-- C3 (amended): for every key with no group in the table,
`get_closest_noise` raises a `ValueError` (surfaced to the caller) and never
returns a default result. -/
theorem C3_missing_key_raises (table : NoiseTable) (f s p t : ℚ)
    (h : lookupKey table (f, s, p) = none) :
    raisesValueError (get_closest_noise table f s p t) = true ∧
    ∀ r : LookupResult, get_closest_noise table f s p t ≠ .ok r := by
  refine ⟨?_, ?_⟩
  · simp [get_closest_noise, h, raisesValueError, PyExc.isValueError]
  · intro r hr
    simp [get_closest_noise, h] at hr

/-- Witness for C3 (amended) at the empty table. -/
theorem C3_missing_key_raises_witness :
    raisesValueError (get_closest_noise [] 1200 12 (-30) 6.5) = true ∧
    get_closest_noise [] 1200 12 (-30) 6.5 ≠ .ok ⟨6.5, 8, "0x78", 120⟩ :=
  ⟨(C3_missing_key_raises [] 1200 12 (-30) 6.5 rfl).1,
   (C3_missing_key_raises [] 1200 12 (-30) 6.5 rfl).2 ⟨6.5, 8, "0x78", 120⟩⟩

/-! ### Claim C8: `get_closest_noise` is pure -/

/-- State-passing form of `get_closest_noise`: the result is paired with the
`self.index` state after the call.  The method body only ever reads
`self.index` (`key not in self.index`, `self.index[key]`, list indexing), so
the state is threaded through unchanged. -/
def get_closest_noise_st (table : NoiseTable) (freq symrate power target_esno : ℚ) :
    Except PyExc LookupResult × NoiseTable :=
  match lookupKey table (freq, symrate, power) with
  | none =>
      (.error (.valueError s!"No data for freq={freq}, symrate={symrate}, power={power}"),
       table)
  | some (esno_list, noise_list) =>
      let best_idx := best_index esno_list target_esno
      let closest_esno := esno_list.getD best_idx 0
      let nh := noise_list.getD best_idx ("", 0)
      (.ok ⟨target_esno, closest_esno, nh.1, nh.2⟩, table)

/-- C8: `get_closest_noise` leaves the table unchanged, a second call on the
post-call table returns the identical result, and the state-passing form
agrees with the direct function of table and arguments. -/
theorem C8_get_closest_noise_pure_idempotent (table : NoiseTable) (f s p t : ℚ) :
    (get_closest_noise_st table f s p t).2 = table ∧
    (get_closest_noise_st ((get_closest_noise_st table f s p t).2) f s p t).1 =
      (get_closest_noise_st table f s p t).1 ∧
    (get_closest_noise_st table f s p t).1 = get_closest_noise table f s p t := by
  have h2 : (get_closest_noise_st table f s p t).2 = table := by
    cases h : lookupKey table (f, s, p) with
    | none => simp [get_closest_noise_st, h]
    | some g => cases g with | mk a b => simp [get_closest_noise_st, h]
  refine ⟨h2, by rw [h2], ?_⟩
  cases h : lookupKey table (f, s, p) with
  | none => simp [get_closest_noise_st, get_closest_noise, h]
  | some g => cases g with | mk a b => simp [get_closest_noise_st, get_closest_noise, h]

/-! ## PLS-code resolution (`traffictester.py` / `testing.py`) -/

/-- One record of `plscodes.json`: a test-pattern (PLS) code and its minimum
required margin. -/
structure PLSEntry where
  plscode : ℤ
  min_esno : ℚ
deriving DecidableEq, Repr

/-- Model of `NoiseTester._get_min_esno` from `testing.py`: the first entry whose
`plscode` equals `self.pls` wins; an absent code raises `ValueError`. -/
def NoiseTester.get_min_esno (plscodes : List PLSEntry) (pls : ℤ) : Except PyExc ℚ :=
  match plscodes.find? (fun e => e.plscode == pls) with
  | some e => .ok e.min_esno
  | none => .error (.valueError s!"No entry for PLS {pls}")

/-- Model of `TrafficTester._get_min_esno` from `traffictester.py`: the first entry
whose `plscode` equals `self.pls` wins; an absent code logs a warning
("defaulting target_esno to 0.0") and returns `0.0`. -/
def TrafficTester.get_min_esno (plscodes : List PLSEntry) (pls : ℤ) : ℚ :=
  match plscodes.find? (fun e => e.plscode == pls) with
  | some e => e.min_esno
  | none => 0

/-- C2 counterexample: for the concrete absent code `61` (and the empty
table), `TrafficTester._get_min_esno` silently returns the default `0.0`
instead of failing — the resolver used by `TrafficTester` does not raise. -/
theorem C2_counterexample_traffictester_defaults :
    TrafficTester.get_min_esno [] 61 = 0 ∧
    raisesValueError (NoiseTester.get_min_esno [] 61) = true := by
  exact ⟨rfl, rfl⟩

/-- C2 (amended): for every code absent from the table, `testing.py`'s
`NoiseTester._get_min_esno` raises a `ValueError`, while `traffictester.py`'s
`TrafficTester._get_min_esno` logs a warning and returns the default target
`0.0` instead of failing. -/
theorem C2_absent_pls_code (plscodes : List PLSEntry) (pls : ℤ)
    (h : plscodes.find? (fun e => e.plscode == pls) = none) :
    raisesValueError (NoiseTester.get_min_esno plscodes pls) = true ∧
    TrafficTester.get_min_esno plscodes pls = 0 := by
  constructor
  · simp [NoiseTester.get_min_esno, h, raisesValueError, PyExc.isValueError]
  · simp [TrafficTester.get_min_esno, h]

/-- Witness for C2 (amended) at the empty table and code `61`. -/
theorem C2_absent_pls_code_witness :
    raisesValueError (NoiseTester.get_min_esno [] 61) = true ∧
    TrafficTester.get_min_esno [] 61 = 0 :=
  C2_absent_pls_code [] 61 rfl

/-! ## Calibration Controller (`NoiseIndex.adjust_noise`) -/

/-- Python's `hex(n)`: lowercase hexadecimal with a `0x` prefix
(`-0x...` for negative arguments). -/
def pyHex (n : ℤ) : String :=
  if n < 0 then "-0x" ++ (Nat.toDigits 16 n.natAbs).asString
  else "0x" ++ (Nat.toDigits 16 n.natAbs).asString

/-- The refinement loop of `NoiseIndex.adjust_noise`.  `meas k` is the value
returned by the `k`-th call to `demod.measure_esno()` (`meas 0` is the
initial measurement taken after the seed noise is applied).  While the
current measurement exceeds `requested + buffer`, the loop increments
`noise_dec` by one, re-applies it to the modulator (an external side
effect), waits, and re-measures.  It exits with the last measurement and the
current `noise_dec`.  The source loop has no iteration cap; `fuel` bounds
the modelled number of loop checks, `none` meaning the loop is still
running after `fuel` checks. -/
def adjust_loop (meas : ℕ → ℚ) (requested buffer : ℚ) : ℕ → ℤ → ℕ → Option (ℚ × ℤ)
  | _, _, 0 => none
  | k, noise_dec, fuel + 1 =>
    if requested + buffer < meas k then
      adjust_loop meas requested buffer (k + 1) (noise_dec + 1) fuel
    else
      some (meas k, noise_dec)

/-- Model of `NoiseIndex.adjust_noise(freq, symrate, power, target_esno, buffer=0.3)`:
seeds `noise_dec` from `get_closest_noise` (propagating its `ValueError`),
applies the initial settings, then runs the refinement loop and returns the
result dict with `requested_esno` echoing the target, `closest_esno` the
final measurement, and `noise_hex = hex(noise_dec)`.  `.ok none` models the
loop still running after `fuel` iterations (the source imposes no cap). -/
def adjust_noise (table : NoiseTable) (freq symrate power target_esno buffer : ℚ)
    (meas : ℕ → ℚ) (fuel : ℕ) : Except PyExc (Option LookupResult) :=
  match get_closest_noise table freq symrate power target_esno with
  | .error e => .error e
  | .ok r =>
    match adjust_loop meas target_esno buffer 0 r.noise_dec fuel with
    | none => .ok none
    | some (closest, noise_dec) =>
        .ok (some ⟨target_esno, closest, pyHex noise_dec, noise_dec⟩)

theorem adjust_loop_exits (meas : ℕ → ℚ) (req buf : ℚ) :
    ∀ (n : ℕ) (start : ℕ) (noise : ℤ) (fuel : ℕ),
      (∀ j, j < n → req + buf < meas (start + j)) →
      ¬ req + buf < meas (start + n) → n < fuel →
      adjust_loop meas req buf start noise fuel = some (meas (start + n), noise + n) := by
  intro n
  induction n with
  | zero =>
      intro start noise fuel _ hstop hfuel
      cases fuel with
      | zero => omega
      | succ f =>
          simp only [adjust_loop, Nat.add_zero] at hstop ⊢
          simp [if_neg hstop]
  | succ n ih =>
      intro start noise fuel hgo hstop hfuel
      cases fuel with
      | zero => omega
      | succ f =>
          have h0 : req + buf < meas start := by simpa using hgo 0 (by omega)
          simp only [adjust_loop, if_pos h0]
          have := ih (start + 1) (noise + 1) f
            (fun j hj => by
              have := hgo (j + 1) (by omega)
              simpa [Nat.add_assoc, Nat.add_comm 1 j] using this)
            (by
              have : start + 1 + n = start + (n + 1) := by omega
              rw [this]; exact hstop)
            (by omega)
          rw [this]
          have h1 : start + 1 + n = start + (n + 1) := by omega
          rw [h1]
          simp only [Option.some.injEq, Prod.mk.injEq, true_and]
          push_cast
          ring

theorem adjust_loop_diverges (meas : ℕ → ℚ) (req buf : ℚ)
    (h : ∀ j, req + buf < meas j) :
    ∀ (fuel start : ℕ) (noise : ℤ), adjust_loop meas req buf start noise fuel = none := by
  intro fuel
  induction fuel with
  | zero => intro start noise; rfl
  | succ f ih => intro start noise; simp [adjust_loop, if_pos (h start), ih]

/-- C4: whenever `adjust_noise` returns a result, the loop has incremented
`noise_dec` by exactly one per iteration starting from the table seed, every
earlier measurement exceeded `requested + buffer`, the final one does not,
`closest_esno` is that final measurement, and `requested_esno` echoes the
caller's target; and for a measurement sequence that stays above
`requested + buffer` forever, no amount of fuel makes the loop exit — the
call never returns. -/
theorem C4_adjust_noise_refinement (table : NoiseTable) (f s p t buffer : ℚ)
    (meas : ℕ → ℚ) (fuel n : ℕ) (seed : LookupResult)
    (hseed : get_closest_noise table f s p t = .ok seed) :
    ((∀ j, j < n → t + buffer < meas j) → ¬ t + buffer < meas n → n < fuel →
      adjust_noise table f s p t buffer meas fuel =
        .ok (some ⟨t, meas n, pyHex (seed.noise_dec + n), seed.noise_dec + n⟩)) ∧
    ((∀ j, t + buffer < meas j) →
      adjust_noise table f s p t buffer meas fuel = .ok none) := by
  constructor
  · intro hgo hstop hfuel
    have hloop := adjust_loop_exits meas t buffer n 0 seed.noise_dec fuel
      (fun j hj => by simpa using hgo j hj) (by simpa using hstop) hfuel
    simp only [adjust_noise, hseed, hloop]
    norm_num
  · intro hall
    simp [adjust_noise, hseed, adjust_loop_diverges meas t buffer hall]

/-- The measurement sequence used by the C4 witness: the initial measurement
is `9` dB, every re-measurement after a noise increment reads `6.5` dB. -/
def measConverging : ℕ → ℚ := fun k => if k = 0 then 9 else 6.5

/-- A measurement sequence that stays above every target: always `100` dB. -/
def measStuck : ℕ → ℚ := fun _ => 100

/-- Witness for C4 at the spec's example table, target `6.5`, buffer `0.3`:
one increment is taken (seed noise `120`), the loop exits at measurement
`6.5 ≤ 6.8` with `noise_dec = 121`, and with the always-high sequence the
loop never exits. -/
theorem C4_adjust_noise_refinement_witness :
    adjust_noise exampleTable 1200 12 (-30) 6.5 0.3 measConverging 3 =
      .ok (some ⟨6.5, 6.5, pyHex 121, 121⟩) ∧
    adjust_noise exampleTable 1200 12 (-30) 6.5 0.3 measStuck 5 = .ok none := by
  have hseed : get_closest_noise exampleTable 1200 12 (-30) 6.5 =
      .ok ⟨6.5, 8, "0x78", 120⟩ := by
    norm_num [get_closest_noise, lookupKey, exampleTable, exampleGroup, best_index, bisect_left]
  constructor
  · have h := (C4_adjust_noise_refinement exampleTable 1200 12 (-30) 6.5 0.3
      measConverging 3 1 ⟨6.5, 8, "0x78", 120⟩ hseed).1
      (by intro j hj
          have hj0 : j = 0 := by omega
          subst hj0
          norm_num [measConverging])
      (by norm_num [measConverging])
      (by omega)
    rw [h]
    norm_num [measConverging]
  · exact (C4_adjust_noise_refinement exampleTable 1200 12 (-30) 6.5 0.3
      measStuck 5 0 ⟨6.5, 8, "0x78", 120⟩ hseed).2
      (by intro j; norm_num [measStuck])

/-! ## Sweep Table construction (`NoiseIndex._build_index`) -/

/-- Insertion of `a` into `l` ordered by `key`: `a` goes before the first
element whose key is not smaller — in particular before existing equal keys,
which makes the sort stable, since by construction `a` precedes every element
of `l` in the input. -/
def insertKeyed {α κ : Type} [LinearOrder κ] (key : α → κ) (a : α) : List α → List α
  | [] => [a]
  | b :: bs => if key a ≤ key b then a :: b :: bs else b :: insertKeyed key a bs

/-- Stable ascending insertion sort by `key`, modelling the sorts used by the
source (pandas `sort_values`, Python `list.sort`). -/
def sortKeyed {α κ : Type} [LinearOrder κ] (key : α → κ) : List α → List α
  | [] => []
  | b :: bs => insertKeyed key b (sortKeyed key bs)

theorem insertKeyed_perm {α κ : Type} [LinearOrder κ] (key : α → κ) (a : α) :
    ∀ l : List α, (insertKeyed key a l).Perm (a :: l) := by
  intro l
  induction l with
  | nil => simp [insertKeyed]
  | cons b bs ih =>
      by_cases h : key a ≤ key b
      · simp [insertKeyed, h]
      · simp only [insertKeyed, if_neg h]
        exact (ih.cons b).trans (List.Perm.swap a b bs)

theorem sortKeyed_perm {α κ : Type} [LinearOrder κ] (key : α → κ) :
    ∀ l : List α, (sortKeyed key l).Perm l := by
  intro l
  induction l with
  | nil => simp [sortKeyed]
  | cons b bs ih =>
      exact ((insertKeyed_perm key b (sortKeyed key bs)).trans (ih.cons b))

theorem insertKeyed_sorted {α κ : Type} [LinearOrder κ] (key : α → κ) (a : α)
    (l : List α) (hl : List.Pairwise (fun x y => key x ≤ key y) l) :
    List.Pairwise (fun x y => key x ≤ key y) (insertKeyed key a l) := by
  induction l with
  | nil => simp [insertKeyed]
  | cons b bs ih =>
      rcases List.pairwise_cons.mp hl with ⟨hb, hbs⟩
      by_cases h : key a ≤ key b
      · rw [insertKeyed, if_pos h]
        refine List.pairwise_cons.mpr ⟨?_, hl⟩
        intro y hy
        rcases List.mem_cons.mp hy with rfl | hy'
        · exact h
        · exact le_trans h (hb y hy')
      · rw [insertKeyed, if_neg h]
        refine List.pairwise_cons.mpr ⟨?_, ih hbs⟩
        intro y hy
        rcases List.mem_cons.mp ((insertKeyed_perm key a bs).mem_iff.mp hy) with rfl | hy'
        · exact le_of_lt (not_le.mp h)
        · exact hb y hy'

theorem sortKeyed_sorted {α κ : Type} [LinearOrder κ] (key : α → κ) :
    ∀ l : List α, List.Pairwise (fun x y => key x ≤ key y) (sortKeyed key l) := by
  intro l
  induction l with
  | nil => simp [sortKeyed]
  | cons b bs ih => exact insertKeyed_sorted key b (sortKeyed key bs) ih

/-- One data row of `sweep_results.csv` (header `frequency_mhz,
symbol_rate_msps, power_dbm, noise_hex, noise_dec, locked, esno_db`).
Numeric columns are modelled as numbers; `dbmanager.py` compares raw CSV
strings when deduplicating, so the model assumes each value has one
canonical textual form in the file (as produced by the sweep writer). -/
structure Row where
  frequency_mhz : ℚ
  symbol_rate_msps : ℚ
  power_dbm : ℚ
  noise_hex : String
  noise_dec : ℤ
  locked : Bool
  esno_db : ℚ
deriving DecidableEq, Repr

/-- The grouping key of `_build_index`:
`(frequency_mhz, symbol_rate_msps, power_dbm)`. -/
def rowKey (r : Row) : ℚ × ℚ × ℚ := (r.frequency_mhz, r.symbol_rate_msps, r.power_dbm)

/-- One group value of `_build_index`: the rows matching key `k`, sorted
ascending by `esno_db` (`sort_values`), projected to the margin list and the
parallel list of zipped `(noise_hex, noise_dec)` pairs. -/
def buildGroup (rows : List Row) (k : ℚ × ℚ × ℚ) : SweepGroup :=
  let sorted_sub := sortKeyed Row.esno_db (rows.filter (fun r => decide (rowKey r = k)))
  (sorted_sub.map Row.esno_db, sorted_sub.map (fun r => (r.noise_hex, r.noise_dec)))

/-- Model of `NoiseIndex._build_index`: group the CSV rows by
`(frequency_mhz, symbol_rate_msps, power_dbm)` (one dict entry per distinct
key), each entry holding the group's margin-sorted parallel lists. -/
def build_index (rows : List Row) : NoiseTable :=
  ((rows.map rowKey).dedup).map (fun k => (k, buildGroup rows k))

theorem map_fst_map_pair {A B : Type} (g : A → B) (l : List A) :
    (l.map (fun k => (k, g k))).map Prod.fst = l := by
  induction l with
  | nil => rfl
  | cons a as ih => simp [ih]

/-- The per-group invariant claimed for the built table: the margin list is
sorted non-decreasingly, the noise list has the same length, and both lists
are index-aligned projections of one ordering of the group's rows. -/
def groupInvariant (rows : List Row) (k : ℚ × ℚ × ℚ) (esnos : List ℚ)
    (noises : List (String × ℤ)) : Prop :=
  esnos.Sorted (· ≤ ·) ∧
  noises.length = esnos.length ∧
  ∃ sub : List Row,
    sub.Perm (rows.filter (fun r => decide (rowKey r = k))) ∧
    List.Pairwise (fun a b => a.esno_db ≤ b.esno_db) sub ∧
    esnos = sub.map Row.esno_db ∧
    noises = sub.map (fun r => (r.noise_hex, r.noise_dec))

/-- C5: after the build step every group's margin sequence is sorted
non-decreasingly, its noise sequence is the parallel index-aligned
`(noise_hex, noise_dec)` projection of the same (reordered) group rows with
equal length, and the table holds one group per distinct key. -/
theorem C5_build_index_sorted_parallel_unique :
    (∀ (rows : List Row) (k : ℚ × ℚ × ℚ) (esnos : List ℚ)
        (noises : List (String × ℤ)),
      (k, (esnos, noises)) ∈ build_index rows → groupInvariant rows k esnos noises)
    ∧ ∀ rows : List Row, ((build_index rows).map Prod.fst).Nodup := by
  constructor
  · intro rows k esnos noises hmem
    obtain ⟨k', _, hk'⟩ := List.mem_map.mp hmem
    simp only [Prod.mk.injEq] at hk'
    obtain ⟨rfl, hgroup⟩ := hk'
    have hesnos : esnos =
        (sortKeyed Row.esno_db (rows.filter (fun r => decide (rowKey r = k')))).map
          Row.esno_db := by
      have := congrArg Prod.fst hgroup
      simpa [buildGroup] using this.symm
    have hnoises : noises =
        (sortKeyed Row.esno_db (rows.filter (fun r => decide (rowKey r = k')))).map
          (fun r => (r.noise_hex, r.noise_dec)) := by
      have := congrArg Prod.snd hgroup
      simpa [buildGroup] using this.symm
    refine ⟨?_, ?_, sortKeyed Row.esno_db (rows.filter (fun r => decide (rowKey r = k'))),
      sortKeyed_perm _ _, sortKeyed_sorted _ _, hesnos, hnoises⟩
    · rw [hesnos]
      exact (List.pairwise_map).mpr (sortKeyed_sorted _ _)
    · rw [hesnos, hnoises]
      simp
  · intro rows
    have h : (build_index rows).map Prod.fst = (rows.map rowKey).dedup := by
      unfold build_index
      exact map_fst_map_pair _ _
    rw [h]
    exact List.nodup_dedup _

/-- Witness for C5 on a one-row dataset: the built group under key
`(1200, 12, -30)` satisfies the invariant. -/
theorem C5_build_index_sorted_parallel_unique_witness :
    groupInvariant [⟨1200, 12, -30, "0x64", 100, true, 4⟩] (1200, 12, -30)
      [4] [("0x64", 100)] :=
  C5_build_index_sorted_parallel_unique.1 [⟨1200, 12, -30, "0x64", 100, true, 4⟩]
    (1200, 12, -30) [4] [("0x64", 100)]
    (by norm_num [build_index, buildGroup, rowKey, sortKeyed, insertKeyed,
      List.dedup_cons_of_not_mem, List.filter])

/-! ## CSV maintenance (`DBManager.sort_and_dedup`) -/

/-- The ascending sort key of `sort_and_dedup`:
`(float(r['frequency_mhz']), float(r['symbol_rate_msps']),
float(r['power_dbm']), int(r['noise_dec']))`, compared lexicographically as
Python compares tuples. -/
def sortKey (r : Row) : ℚ ×ₗ ℚ ×ₗ ℚ ×ₗ ℤ :=
  toLex (r.frequency_mhz, toLex (r.symbol_rate_msps, toLex (r.power_dbm, r.noise_dec)))

/-- The exact duplicate key of `sort_and_dedup` (the first four columns). -/
def exactKey (r : Row) : ℚ × ℚ × ℚ × ℤ :=
  (r.frequency_mhz, r.symbol_rate_msps, r.power_dbm, r.noise_dec)

/-- The noise-agnostic duplicate key of `sort_and_dedup`: ignores
`noise_dec`, matches on `esno_db`. -/
def altKey (r : Row) : ℚ × ℚ × ℚ × ℚ :=
  (r.frequency_mhz, r.symbol_rate_msps, r.power_dbm, r.esno_db)

/-- The deduplication pass of `sort_and_dedup`: walk the sorted rows, skip a
row whose exact key or noise-agnostic key was already seen, and register
both keys only when a row is kept. -/
def dedupRows : List Row → List (ℚ × ℚ × ℚ × ℤ) → List (ℚ × ℚ × ℚ × ℚ) → List Row
  | [], _, _ => []
  | r :: rs, seenE, seenA =>
    if exactKey r ∈ seenE ∨ altKey r ∈ seenA then
      dedupRows rs seenE seenA
    else
      r :: dedupRows rs (exactKey r :: seenE) (altKey r :: seenA)

/-- Model of `DBManager.sort_and_dedup`: sort all rows ascending by
`(frequency_mhz, symbol_rate_msps, power_dbm, noise_dec)` (Python's stable
`list.sort`), then deduplicate front to back with the two seen-key sets. -/
def sort_and_dedup (rows : List Row) : List Row :=
  dedupRows (sortKeyed sortKey rows) [] []

theorem dedupRows_sublist :
    ∀ (rs : List Row) (sE : List (ℚ × ℚ × ℚ × ℤ)) (sA : List (ℚ × ℚ × ℚ × ℚ)),
      (dedupRows rs sE sA).Sublist rs := by
  intro rs
  induction rs with
  | nil => intro sE sA; simp [dedupRows]
  | cons r rs ih =>
      intro sE sA
      by_cases h : exactKey r ∈ sE ∨ altKey r ∈ sA
      · rw [dedupRows, if_pos h]
        exact (ih sE sA).cons r
      · rw [dedupRows, if_neg h]
        exact (ih _ _).cons₂ r

theorem dedupRows_exactKey_fresh :
    ∀ (rs : List Row) (sE : List (ℚ × ℚ × ℚ × ℤ)) (sA : List (ℚ × ℚ × ℚ × ℚ)),
      ((dedupRows rs sE sA).map exactKey).Nodup ∧
      ∀ r ∈ dedupRows rs sE sA, exactKey r ∉ sE := by
  intro rs
  induction rs with
  | nil => intro sE sA; simp [dedupRows]
  | cons r rs ih =>
      intro sE sA
      by_cases h : exactKey r ∈ sE ∨ altKey r ∈ sA
      · rw [dedupRows, if_pos h]
        exact ih sE sA
      · rw [dedupRows, if_neg h]
        obtain ⟨ihNodup, ihFresh⟩ := ih (exactKey r :: sE) (altKey r :: sA)
        constructor
        · rw [List.map_cons, List.nodup_cons]
          refine ⟨?_, ihNodup⟩
          intro hmem
          obtain ⟨x, hx, hkey⟩ := List.mem_map.mp hmem
          exact (ihFresh x hx) (hkey ▸ List.mem_cons_self _ _)
        · intro x hx
          rcases List.mem_cons.mp hx with rfl | hx'
          · exact fun hc => h (Or.inl hc)
          · exact fun hc => (ihFresh x hx') (List.mem_cons_of_mem _ hc)

theorem dedupRows_altKey_fresh :
    ∀ (rs : List Row) (sE : List (ℚ × ℚ × ℚ × ℤ)) (sA : List (ℚ × ℚ × ℚ × ℚ)),
      ((dedupRows rs sE sA).map altKey).Nodup ∧
      ∀ r ∈ dedupRows rs sE sA, altKey r ∉ sA := by
  intro rs
  induction rs with
  | nil => intro sE sA; simp [dedupRows]
  | cons r rs ih =>
      intro sE sA
      by_cases h : exactKey r ∈ sE ∨ altKey r ∈ sA
      · rw [dedupRows, if_pos h]
        exact ih sE sA
      · rw [dedupRows, if_neg h]
        obtain ⟨ihNodup, ihFresh⟩ := ih (exactKey r :: sE) (altKey r :: sA)
        constructor
        · rw [List.map_cons, List.nodup_cons]
          refine ⟨?_, ihNodup⟩
          intro hmem
          obtain ⟨x, hx, hkey⟩ := List.mem_map.mp hmem
          exact (ihFresh x hx) (hkey ▸ List.mem_cons_self _ _)
        · intro x hx
          rcases List.mem_cons.mp hx with rfl | hx'
          · exact fun hc => h (Or.inr hc)
          · exact fun hc => (ihFresh x hx') (List.mem_cons_of_mem _ hc)

/-- The output invariant of `sort_and_dedup`: the rewritten rows are sorted
ascending by `(frequency, symbol_rate, power, noise_dec)`, no two retained
rows share the exact 4-tuple key or the noise-agnostic (margin) key — in
particular at most one row per margin key survives, so whenever the earlier
of two margin-duplicates is retained the later is dropped — and every output
row is an input row. -/
def dedupOutputInvariant (rows : List Row) : Prop :=
  List.Pairwise (fun a b => sortKey a ≤ sortKey b) (sort_and_dedup rows) ∧
  ((sort_and_dedup rows).map exactKey).Nodup ∧
  ((sort_and_dedup rows).map altKey).Nodup ∧
  (∀ a ∈ sort_and_dedup rows, ∀ b ∈ sort_and_dedup rows, altKey a = altKey b → a = b) ∧
  ∀ r ∈ sort_and_dedup rows, r ∈ rows

/-- Rows used by the C6 counterexample: `rowD` and `rowA` share the exact
4-tuple key `(1200, 12, -30, 100)` but have different margins, while `rowA`
and `rowB` share the margin key `(1200, 12, -30, 6)` but have different
`noise_dec`. -/
def rowD : Row := ⟨1200, 12, -30, "0x64", 100, true, 9⟩

/-- Second counterexample row; see `rowD`. -/
def rowA : Row := ⟨1200, 12, -30, "0x64", 100, true, 6⟩

/-- Third counterexample row; see `rowD`. -/
def rowB : Row := ⟨1200, 12, -30, "0x69", 105, true, 6⟩

/-- C6 counterexample: `rowA` and `rowB` agree on frequency, symbol rate,
power and margin and differ in `noise_dec`, yet `sort_and_dedup` retains the
*second* of them (`rowB`) and drops the first (`rowA`): `rowA` is excluded
by the exact-key check against `rowD`, so its margin key is never
registered and `rowB` survives. -/
theorem C6_counterexample_second_margin_duplicate_retained :
    altKey rowA = altKey rowB ∧ rowA.noise_dec ≠ rowB.noise_dec ∧
    sort_and_dedup [rowD, rowA, rowB] = [rowD, rowB] ∧
    rowB ∈ sort_and_dedup [rowD, rowA, rowB] ∧
    rowA ∉ sort_and_dedup [rowD, rowA, rowB] := by
  have hAB : sortKey rowA ≤ sortKey rowB := by
    rw [sortKey, sortKey, Prod.Lex.le_iff]
    refine Or.inr ⟨rfl, ?_⟩
    rw [Prod.Lex.le_iff]
    refine Or.inr ⟨rfl, ?_⟩
    rw [Prod.Lex.le_iff]
    refine Or.inr ⟨rfl, ?_⟩
    show (100 : ℤ) ≤ 105
    norm_num
  have hDA : sortKey rowD ≤ sortKey rowA := le_of_eq rfl
  have h2 : insertKeyed sortKey rowA [rowB] = [rowA, rowB] := by
    rw [insertKeyed, if_pos hAB]
  have h3 : insertKeyed sortKey rowD [rowA, rowB] = [rowD, rowA, rowB] := by
    rw [insertKeyed, if_pos hDA]
  have hsort : sortKeyed sortKey [rowD, rowA, rowB] = [rowD, rowA, rowB] := by
    simp only [sortKeyed]
    rw [show insertKeyed sortKey rowB [] = [rowB] from rfl, h2, h3]
  have hA : exactKey rowA ∈ [exactKey rowD] ∨ altKey rowA ∈ [altKey rowD] :=
    Or.inl (List.mem_singleton.mpr rfl)
  have hB : ¬ (exactKey rowB ∈ [exactKey rowD] ∨ altKey rowB ∈ [altKey rowD]) := by
    intro hc
    rcases hc with hc | hc
    · rw [List.mem_singleton] at hc
      have := congrArg (fun q : ℚ × ℚ × ℚ × ℤ => q.2.2.2) hc
      norm_num [exactKey, rowB, rowD] at this
    · rw [List.mem_singleton] at hc
      have := congrArg (fun q : ℚ × ℚ × ℚ × ℚ => q.2.2.2) hc
      norm_num [altKey, rowB, rowD] at this
  have hD : ¬ (exactKey rowD ∈ ([] : List (ℚ × ℚ × ℚ × ℤ)) ∨
      altKey rowD ∈ ([] : List (ℚ × ℚ × ℚ × ℚ))) := by simp
  have hdedup : dedupRows [rowD, rowA, rowB] [] [] = [rowD, rowB] := by
    rw [dedupRows, if_neg hD, dedupRows, if_pos hA, dedupRows, if_neg hB]
    rfl
  have hout : sort_and_dedup [rowD, rowA, rowB] = [rowD, rowB] := by
    rw [sort_and_dedup, hsort, hdedup]
  refine ⟨rfl, ?_, hout, ?_, ?_⟩
  · show (100 : ℤ) ≠ 105
    norm_num
  · rw [hout]; simp
  · rw [hout]
    intro hc
    rcases List.mem_cons.mp hc with hc | hc
    · have := congrArg Row.esno_db hc
      norm_num [rowA, rowD] at this
    · rw [List.mem_singleton] at hc
      have := congrArg Row.noise_dec hc
      norm_num [rowA, rowB] at this

/-- C6 (amended): `sort_and_dedup` rewrites the rows sorted ascending by
`(frequency, symbol_rate, power, noise_dec)` with no two retained rows
sharing the exact 4-tuple key or the margin-based alternate key; for two
margin-duplicates at most one is retained (so if the first is retained the
second is dropped), but the survivor can be the later one when the earlier
was itself excluded by the exact-key check. -/
theorem C6_sort_and_dedup_invariants :
    ∀ rows : List Row, dedupOutputInvariant rows := by
  intro rows
  have hsub := dedupRows_sublist (sortKeyed sortKey rows) [] []
  have hE := dedupRows_exactKey_fresh (sortKeyed sortKey rows) [] []
  have hA := dedupRows_altKey_fresh (sortKeyed sortKey rows) [] []
  refine ⟨?_, hE.1, hA.1, ?_, ?_⟩
  · exact List.Pairwise.sublist hsub (sortKeyed_sorted sortKey rows)
  · intro a ha b hb hkey
    exact List.inj_on_of_nodup_map hA.1 ha hb hkey
  · intro r hr
    exact (sortKeyed_perm sortKey rows).mem_iff.mp (hsub.mem hr)

/-- Witness for C6 (amended) at the counterexample row set. -/
theorem C6_sort_and_dedup_invariants_witness :
    dedupOutputInvariant [rowD, rowA, rowB] :=
  C6_sort_and_dedup_invariants [rowD, rowA, rowB]

/-! ## `safe_call` (`utils/helpers.py`) -/

/-- Model of `safe_call(obj, method_name, *args, fallback=None, **kwargs)`: `lookup`
models `getattr(obj, method_name)` (which may raise, e.g. `AttributeError`),
and the looked-up method takes the bundled positional/keyword arguments and
may itself raise.  Any exception from either step is caught (and logged) and
the fallback is returned; the function itself always returns a plain value. -/
def safe_call {ε α β : Type} (lookup : Except ε (α → Except ε β)) (args : α)
    (fallback : β) : β :=
  match lookup with
  | .error _ => fallback
  | .ok method =>
    match method args with
    | .error _ => fallback
    | .ok v => v

/-- C10: `safe_call` returns the method's value when lookup and call
succeed, returns the fallback when the lookup or the call raises, and in
every case produces a plain value (it never propagates an exception:
its result is always either the method's value or the fallback). -/
theorem C10_safe_call_returns_value_or_fallback (ε α β : Type)
    (lookup : Except ε (α → Except ε β)) (args : α) (fallback : β) :
    (∀ (method : α → Except ε β) (v : β), lookup = .ok method →
      method args = .ok v → safe_call lookup args fallback = v) ∧
    (∀ e : ε, lookup = .error e → safe_call lookup args fallback = fallback) ∧
    (∀ (method : α → Except ε β) (e : ε), lookup = .ok method →
      method args = .error e → safe_call lookup args fallback = fallback) ∧
    (safe_call lookup args fallback = fallback ∨
      ∃ (method : α → Except ε β) (v : β), lookup = .ok method ∧
        method args = .ok v ∧ safe_call lookup args fallback = v) := by
  refine ⟨?_, ?_, ?_, ?_⟩
  · intro method v hl hc
    simp [safe_call, hl, hc]
  · intro e hl
    simp [safe_call, hl]
  · intro method e hl hc
    simp [safe_call, hl, hc]
  · cases hl : lookup with
    | error e => exact Or.inl (by simp [safe_call, hl])
    | ok method =>
        cases hc : method args with
        | error e => exact Or.inl (by simp [safe_call, hl, hc])
        | ok v => exact Or.inr ⟨method, v, rfl, hc, by simp [safe_call, hl, hc]⟩

/-- A successful method lookup and call: increments its argument. -/
def callIncr : Except String (ℕ → Except String ℕ) := .ok (fun n => .ok (n + 1))

/-- A failed method lookup (e.g. `AttributeError`). -/
def callMissing : Except String (ℕ → Except String ℕ) := .error "missing attribute"

/-- A method whose invocation raises. -/
def callRaising : Except String (ℕ → Except String ℕ) := .ok (fun _ => .error "device read failed")

/-- Witness for C10 on the three concrete call shapes. -/
theorem C10_safe_call_returns_value_or_fallback_witness :
    safe_call callIncr 3 0 = 4 ∧
    safe_call callMissing 3 0 = 0 ∧
    safe_call callRaising 3 0 = 0 :=
  ⟨(C10_safe_call_returns_value_or_fallback String ℕ ℕ callIncr 3 0).1 _ 4 rfl rfl,
   (C10_safe_call_returns_value_or_fallback String ℕ ℕ callMissing 3 0).2.1
     "missing attribute" rfl,
   (C10_safe_call_returns_value_or_fallback String ℕ ℕ callRaising 3 0).2.2.1 _
     "device read failed" rfl rfl⟩

/-! ## Lock wait and result record (`TrafficTester`) -/

/-- The device/environment behaviour `execute_test` observes, as oracles:
`is_locked k` is the `k`-th `is_locked` device read (`.error` = the read
raised and `safe_call` falls back to `False`), `elapsed k` is
`time.time() - start` at the `k`-th timeout check, and `get_esno` /
`get_packet_traffic` are the safe-called reads of the locked path. -/
structure TestDevice where
  is_locked : ℕ → Except PyExc Bool
  elapsed : ℕ → ℚ
  get_esno : Except PyExc (Option ℚ)
  get_packet_traffic : Except PyExc (Option ℚ)

/-- Model of `TrafficTester._wait_for_lock`: poll `is_locked` through `safe_call`
(fallback `False`); return `True` on a locked reading, `False` once the
elapsed time exceeds `LOCK_TIMEOUT`, else sleep briefly and poll again.
`fuel` bounds the modelled number of polls (`none` = still polling). -/
def wait_for_lock (dev : TestDevice) (timeout : ℚ) : ℕ → ℕ → Option Bool
  | _, 0 => none
  | k, fuel + 1 =>
    if safe_call (Except.ok fun _ : Unit => dev.is_locked k) () false then some true
    else if timeout < dev.elapsed k then some false
    else wait_for_lock dev timeout (k + 1) fuel

/-- Python's `round(x, 4)` on the packet-loss percentage.  (Python rounds
half to even; the rounding mode is irrelevant to every claim proved here.) -/
def round4 (x : ℚ) : ℚ := (round (x * 10000) : ℤ) / 10000

/-- The outcome fields of one `_write_csv_result` row (the general-info,
date and parameter columns are pass-through); the source writes the literal
string `"none"` where the model has `none`. -/
structure CsvRecord where
  noise : Option ℤ
  locked : Bool
  esno : Option ℚ
  packet_loss_percentage : Option ℚ
deriving DecidableEq, Repr

/-- The result-record skeleton of `TrafficTester.execute_test` after the
connectivity check and PLS setup: fetch the seed noise at `target + 0.5`
(exceptions are caught and logged, leaving `noise_result = None`), apply
modulator and DUT settings (external side effects), and wait for lock.  If
the wait times out, the persisted record is `locked=false` with no ESNO and
no traffic measurement and the test returns; otherwise ESNO is read (only
when noise was applied) and the packet-traffic evaluation runs (a
non-numeric or missing reading leaves it `None`).  The result is the record
passed to `_write_csv_result`; `none` means the lock-wait loop was still
polling after `fuel` polls. -/
def execute_test (table : NoiseTable) (dev : TestDevice)
    (freq symrate power target_esno timeout : ℚ) (fuel : ℕ) : Option CsvRecord :=
  let noise_result : Option ℤ :=
    match get_closest_noise table freq symrate power (target_esno + 0.5) with
    | .ok r => some r.noise_dec
    | .error _ => none
  match wait_for_lock dev timeout 0 fuel with
  | none => none
  | some false => some ⟨noise_result, false, none, none⟩
  | some true =>
    let esno : Option ℚ :=
      match noise_result with
      | some _ =>
        match dev.get_esno with
        | .ok v => v
        | .error _ => none
      | none => none
    let eval_result : Option ℚ :=
      match dev.get_packet_traffic with
      | .ok (some x) => some (round4 x)
      | _ => none
    some ⟨noise_result, true, esno, eval_result⟩

theorem wait_for_lock_times_out (dev : TestDevice) (timeout : ℚ)
    (hlock : ∀ k, safe_call (Except.ok fun _ : Unit => dev.is_locked k) () false = false) :
    ∀ (N start : ℕ), timeout < dev.elapsed (start + N) →
      wait_for_lock dev timeout start (N + 1) = some false := by
  intro N
  induction N with
  | zero =>
      intro start h
      rw [Nat.add_zero] at h
      simp [wait_for_lock, hlock start, h]
  | succ n ih =>
      intro start h
      by_cases he : timeout < dev.elapsed start
      · rw [wait_for_lock, hlock start]
        simp [he]
      · rw [wait_for_lock, hlock start]
        simp only [Bool.false_eq_true, if_false, if_neg he]
        exact ih (start + 1) (by
          have heq : start + 1 + n = start + (n + 1) := by omega
          rw [heq]; exact h)

/-- C7: when no poll ever reports lock and the elapsed time exceeds the
budget by poll `N`, `_wait_for_lock` returns the structured value `False`
(it does not raise — device-read failures are absorbed by `safe_call`), and
`execute_test` still produces a persisted record with `locked=false` and no
ESNO / traffic measurements. -/
theorem C7_lock_timeout_yields_record (table : NoiseTable) (dev : TestDevice)
    (f s p t timeout : ℚ) (N : ℕ)
    (hlock : ∀ k, safe_call (Except.ok fun _ : Unit => dev.is_locked k) () false = false)
    (helapsed : timeout < dev.elapsed N) :
    wait_for_lock dev timeout 0 (N + 1) = some false ∧
    (execute_test table dev f s p t timeout (N + 1)).isSome = true ∧
    (execute_test table dev f s p t timeout (N + 1)).map CsvRecord.locked = some false ∧
    (execute_test table dev f s p t timeout (N + 1)).map CsvRecord.esno = some none ∧
    (execute_test table dev f s p t timeout (N + 1)).map
      CsvRecord.packet_loss_percentage = some none := by
  have hw : wait_for_lock dev timeout 0 (N + 1) = some false :=
    wait_for_lock_times_out dev timeout hlock N 0 (by simpa using helapsed)
  refine ⟨hw, ?_, ?_, ?_, ?_⟩ <;> simp [execute_test, hw]

/-- The C7 witness device: every `is_locked` read returns `False` and the
clock advances one second per poll. -/
def devNeverLocks : TestDevice :=
  ⟨fun _ => .ok false, fun k => (k : ℚ), .ok none, .ok none⟩

/-- Witness for C7: with a 2-second budget and the never-locking device, the
wait returns `False` and the record has `locked=false` and no measurements. -/
theorem C7_lock_timeout_yields_record_witness :
    wait_for_lock devNeverLocks 2 0 4 = some false ∧
    (execute_test [] devNeverLocks 1200 12 (-30) 6.5 2 4).map CsvRecord.locked =
      some false ∧
    (execute_test [] devNeverLocks 1200 12 (-30) 6.5 2 4).map CsvRecord.esno =
      some none ∧
    (execute_test [] devNeverLocks 1200 12 (-30) 6.5 2 4).map
      CsvRecord.packet_loss_percentage = some none := by
  have h := C7_lock_timeout_yields_record [] devNeverLocks 1200 12 (-30) 6.5 2 3
    (fun k => rfl) (by norm_num [devNeverLocks])
  exact ⟨h.1, h.2.2.1, h.2.2.2.1, h.2.2.2.2⟩

/-! ## Streak Evaluator (modelled from the spec)

The source tree under scrutiny contains no implementation of the Streak
Evaluator; the component is specified only by the design document (§4.3).
The definitions below are modelled from the spec's transition table, with
time measured in poll-interval ticks. -/

/-- Modelled from the spec: the Timeout/Policy Configuration owned by the
Streak Evaluator — `window` is the evaluation window, `stabilize` the
post-fault `stabilize_after_reset` delay, `goal` the optional early-success
streak duration; all in poll-interval ticks. -/
structure StreakConfig where
  window : ℕ
  stabilize : ℕ
  goal : Option ℕ

/-- Modelled from the spec: the device readings the evaluator polls at each
tick — lock state, new error frames (bad + missed) observed at the tick, and
the cumulative good-frame counter. -/
structure StreakTrace where
  locked : ℕ → Bool
  errNew : ℕ → ℕ
  goodCum : ℕ → ℕ

/-- Modelled from the spec: the Streak State (§3) — `in_streak`, the streak
start time, the good-frame baseline at streak start, and the best streak
recorded so far. -/
structure StreakState where
  in_streak : Bool
  streak_start : ℕ
  good_at_start : ℕ
  best_dur : ℕ
  best_count : ℕ

/-- Modelled from the spec: the Streak Evaluator output
`{best_streak_duration, best_streak_good_count}` (durations in ticks;
good counts floor at zero via truncated subtraction). -/
structure StreakResult where
  best_streak_duration : ℕ
  best_streak_good_count : ℕ
deriving DecidableEq, Repr

/-- Modelled from the spec: finalization — the in-progress streak length is
folded into the best-streak result before returning (strict improvement
only, ties do not update); the folded good count is measured at the last
observed tick. -/
def streakFinalize (tr : StreakTrace) (st : StreakState) (t : ℕ) : StreakResult :=
  if st.in_streak = true ∧ st.best_dur < t - st.streak_start then
    ⟨t - st.streak_start, tr.goodCum (t - 1) - st.good_at_start⟩
  else
    ⟨st.best_dur, st.best_count⟩

/-- Modelled from the spec: the per-tick transition loop of the Streak
Evaluator (§4.3) from tick `t` in state `st`: stop and finalize at the
deadline; on unlock or new error frames drop to idle, reset the counters and
wait `stabilize_after_reset` capped at the remaining budget; on a locked,
error-free tick start a streak when idle (recording the start time and the
good-frame baseline), otherwise update the best streak on strict improvement
and stop early when the configured goal duration is reached. -/
def streakGo (cfg : StreakConfig) (tr : StreakTrace) (t : ℕ) (st : StreakState) :
    StreakResult :=
  if h : cfg.window ≤ t then streakFinalize tr st t
  else if ¬ tr.locked t = true ∨ 0 < tr.errNew t then
    streakGo cfg tr (t + 1 + min cfg.stabilize (cfg.window - (t + 1)))
      { st with in_streak := false }
  else if st.in_streak then
    let cur := t - st.streak_start
    let st' := if st.best_dur < cur then
        { st with best_dur := cur, best_count := tr.goodCum t - st.good_at_start }
      else st
    match cfg.goal with
    | some g => if g ≤ cur then streakFinalize tr st' t else streakGo cfg tr (t + 1) st'
    | none => streakGo cfg tr (t + 1) st'
  else
    streakGo cfg tr (t + 1)
      { in_streak := true, streak_start := t, good_at_start := tr.goodCum t,
        best_dur := st.best_dur, best_count := st.best_count }
termination_by cfg.window - t
decreasing_by all_goals omega

/-- Modelled from the spec: one evaluation call, starting at tick 0 in the
idle initial state. -/
def streakEvaluate (cfg : StreakConfig) (tr : StreakTrace) : StreakResult :=
  streakGo cfg tr 0 ⟨false, 0, 0, 0, 0⟩

theorem streakGo_all_good (cfg : StreakConfig) (tr : StreakTrace)
    (hgoal : cfg.goal = none)
    (hgood : ∀ t, t < cfg.window → tr.locked t = true ∧ tr.errNew t = 0) :
    ∀ (n t : ℕ), t + n = cfg.window → 1 ≤ t →
      streakGo cfg tr t
          ⟨true, 0, tr.goodCum 0, t - 1, tr.goodCum (t - 1) - tr.goodCum 0⟩ =
        ⟨cfg.window, tr.goodCum (cfg.window - 1) - tr.goodCum 0⟩ := by
  intro n
  induction n with
  | zero =>
      intro t ht h1
      have htw : cfg.window = t := by omega
      have hlt : t - 1 < t - 0 := by omega
      rw [streakGo, dif_pos (by omega), streakFinalize, if_pos ⟨rfl, hlt⟩]
      simp [htw]
  | succ n ih =>
      intro t ht h1
      have htw : t < cfg.window := by omega
      obtain ⟨hlock, herr⟩ := hgood t htw
      rw [streakGo]
      rw [dif_neg (by omega)]
      rw [if_neg (by simp [hlock, herr])]
      rw [if_pos rfl]
      simp only [hgoal]
      have hbest : t - 1 < t - 0 := by omega
      simp only [Nat.sub_zero] at hbest ⊢
      rw [if_pos hbest]
      have hstep := ih (t + 1) (by omega) (by omega)
      simp only [Nat.add_sub_cancel] at hstep
      exact hstep

/-- C9 (spec-modelled): for a device trace that is locked with zero new
error frames at every poll of the evaluation window (and no early-success
goal), the Streak Evaluator returns `best_streak_duration` equal to the
window length and `best_streak_good_count` equal to the good frames
accumulated over the observed window. -/
theorem C9_streak_all_good_full_window (cfg : StreakConfig) (tr : StreakTrace)
    (hgoal : cfg.goal = none) (hwin : 1 ≤ cfg.window)
    (hgood : ∀ t, t < cfg.window → tr.locked t = true ∧ tr.errNew t = 0) :
    streakEvaluate cfg tr =
      ⟨cfg.window, tr.goodCum (cfg.window - 1) - tr.goodCum 0⟩ := by
  obtain ⟨hlock0, herr0⟩ := hgood 0 (by omega)
  rw [streakEvaluate, streakGo]
  rw [dif_neg (by omega)]
  rw [if_neg (by simp [hlock0, herr0])]
  rw [if_neg (by simp)]
  have h := streakGo_all_good cfg tr hgoal hgood (cfg.window - 1) 1 (by omega) le_rfl
  simp only [Nat.sub_self] at h ⊢
  exact h

/-- The configuration of the C9 witness: a 3-tick window, no goal. -/
def cfgExample : StreakConfig := ⟨3, 2, none⟩

/-- The trace of the C9 witness: always locked, never an error frame, ten
good frames accumulated per tick. -/
def traceAllGood : StreakTrace := ⟨fun _ => true, fun _ => 0, fun t => 10 * t⟩

/-- Witness for C9: the all-good trace over a 3-tick window yields a best
streak of the full window with the 20 good frames observed during it. -/
theorem C9_streak_all_good_full_window_witness :
    streakEvaluate cfgExample traceAllGood = ⟨3, 20⟩ :=
  C9_streak_all_good_full_window cfgExample traceAllGood rfl (by decide)
    (fun t _ => ⟨rfl, rfl⟩)
